import Mathlib

/-!
# Verification of the `mmfutils.math.bases` basis family

Shallow embedding of `src/mmfutils/math/bases/{bases,interface,utils}.py`.

Machine floats are modelled as real numbers (`ℝ`), complex `numpy` arrays as
functions into `ℂ`, and the discrete transforms as the exact finite Fourier
sums that the external transform engine (`numpy`/`scipy` FFTs) computes, with
the standard numpy convention `fft(x)[k] = Σ_n x[n]·exp(-2πi·k·n/N)` and
`ifft = (1/N)·Σ ... exp(+2πi·k·n/N)`.
-/

open Complex Finset

noncomputable section

/-! ## Grids and frequencies (`utils.get_xyz`, `utils.get_kxyz`) -/

/-- Integer numerators of `np.fft.fftfreq(n)`: index `m` maps to `m` for
`m < ⌈n/2⌉` and to `m - n` otherwise (`utils.get_kxyz` uses
`2π·np.fft.fftfreq(n, L/n)`). -/
def fftfreqIdx (n : ℕ) (m : Fin n) : ℤ :=
  if (m : ℕ) < (n + 1) / 2 then (m : ℤ) else (m : ℤ) - n

/-- One coordinate axis of `utils.get_xyz` with `symmetric_lattice=False`:
`x[j] = (j - n/2)·L/n` (from `L/n * np.arange(-n/2, n/2)`). -/
def xg (n : ℕ) (L : ℝ) (j : Fin n) : ℝ := ((j : ℝ) - n / 2) * L / n

/-- One momentum axis of `utils.get_kxyz`:
`k[m] = 2π·fftfreq(n, L/n)[m] = 2π·fftfreqIdx(n,m)/L`. -/
def kg (n : ℕ) (L : ℝ) (m : Fin n) : ℝ := 2 * Real.pi * (fftfreqIdx n m) / L

/-- The root of unity `exp(2πi·t/M)` used by the discrete Fourier sums. -/
def omega (M : ℕ) (t : ℤ) : ℂ := Complex.exp (2 * Real.pi * I * t / M)

/-- One-dimensional forward DFT (`utils.fft`, numpy convention):
`fft(f)[k] = Σ_j f[j]·exp(-2πi·j·k/N)`. -/
def fft1 (N : ℕ) (f : Fin N → ℂ) (k : Fin N) : ℂ :=
  ∑ j : Fin N, f j * omega N (-((j : ℤ) * (k : ℤ)))

/-- One-dimensional inverse DFT (`utils.ifft`, numpy convention):
`ifft(g)[j] = (1/N)·Σ_k g[k]·exp(2πi·j·k/N)`. -/
def ifft1 (N : ℕ) (g : Fin N → ℂ) (j : Fin N) : ℂ :=
  (N : ℂ)⁻¹ * ∑ k : Fin N, g k * omega N ((j : ℤ) * (k : ℤ))

/-! ## Coulomb kernels -/

/-- `PeriodicBasis.coulomb_kernel`:
`4π * np.ma.divide(1.0, k**2).filled(0.0)`; the masked (`k = 0`) entry of the
division is filled with `0` before the `4π` prefactor is applied. -/
def periodicCoulombKernel (k : ℝ) : ℝ :=
  4 * Real.pi * (if k = 0 then 0 else 1 / k ^ 2)

/-- `SphericalBasis.coulomb_kernel` with `D = 2R`:
`4π * np.ma.divide(1 - cos(k·D), k**2).filled(D²/2)`; the masked (`k = 0`)
entry of the division is filled with `D²/2` before the `4π` prefactor. -/
def sphericalCoulombKernel (R k : ℝ) : ℝ :=
  4 * Real.pi *
    (if k = 0 then (2 * R) ^ 2 / 2 else (1 - Real.cos (k * (2 * R))) / k ^ 2)

/-- The local kernel `C(k)` of `CartesianBasis.convolve_coulomb_exact`
(including the loop `for F in form_factors: C = C * F(k)`):
`C(k) = 4π * np.ma.divide(1 - cos(D·k), k**2).filled(D²/2) * Π F(k)`. -/
def cartesianCkernel (D : ℝ) (ffs : List (ℝ → ℝ)) (k : ℝ) : ℝ :=
  (4 * Real.pi *
      (if k = 0 then D ^ 2 / 2 else (1 - Real.cos (D * k)) / k ^ 2)) *
    (ffs.map (fun F => F k)).prod

/-! ## The `BasisMixin` derived layer (`interface.BasisMixin.grad_dot_grad`) -/

/-- `BasisMixin.grad_dot_grad(a, b)`:
`(laplacian(a*b) - laplacian(a)*b - a*laplacian(b)) / 2.0`, for any basis
supplying `laplacian`; fields are pointwise-multiplied arrays. -/
def gradDotGrad {ι : Type*} (laplacian : (ι → ℂ) → (ι → ℂ))
    (a b : ι → ℂ) : ι → ℂ :=
  (laplacian (a * b) - laplacian a * b - a * laplacian b) / 2

end

/-! ## CylindricalBasis: the exponential-operator cache (`apply_exp_K`)

The cache `_K_data` is a list of `(factor, K_data)` pairs.  Factors are
machine floats compared by `np.allclose`; floats are (dyadic) rationals, so
factors are modelled as `ℚ`, keeping the lookup decidable. -/

/-- `np.allclose(factor, f)` for scalars, with numpy's default tolerances
`rtol = 1e-5`, `atol = 1e-8`: `|a - b| ≤ atol + rtol·|b|`. -/
def allclose (a b : ℚ) : Bool :=
  decide (|a - b| ≤ 1 / 100000000 + 1 / 100000 * |b|)

/-- The lookup loop of `CylindricalBasis.apply_exp_K`:
`for _i, (_f, _d) in enumerate(self._K_data): if np.allclose(factor, _f): ind = _i`
— every match overwrites `ind`, so the result is the *last* matching index,
or `None` when nothing matches. -/
def K_lookup {α : Type*} (cache : List (ℚ × α)) (factor : ℚ) : Option ℕ :=
  cache.enum.foldl
    (fun acc e => if allclose factor e.2.1 then some e.1 else acc) none

/-- The cache transition and data selection of `apply_exp_K`
(`_K_data_max_len = 3`): on a miss, compute `K_data`, append
`(factor, K_data)`, then `while len(self._K_data) > 3: self._K_data.pop(0)`
(popping the front until 3 remain is `drop (length - 3)`), and use
`self._K_data[-1]` — the entry just appended, which front-eviction never
removes.  On a hit at index `ind`, use `self._K_data[ind]` and leave the
cache unchanged.  (`getD`'s default is never used: a returned index is
always in range.) -/
def K_step {α : Type*} (compute : ℚ → α) (cache : List (ℚ × α))
    (factor : ℚ) : List (ℚ × α) × α :=
  match K_lookup cache factor with
  | some i => (cache, (cache.getD i (factor, compute factor)).2)
  | none =>
      let data := compute factor
      let c1 := cache ++ [(factor, data)]
      (c1.drop (c1.length - 3), data)

noncomputable section

/-- Configuration and init-time state of a `CylindricalBasis` that
`apply_exp_K` reads: `Lx`, `twist`, `px`, and — from `init` — the
eigendecomposition `d, V = eigh(K)` of the symmetric radial DVR matrix
(`scipy.linalg.eigh` on a real symmetric matrix: `K = V·diag(d)·Vᵀ` with `V`
orthogonal), the quadrature weights `w` and the radial abscissa `rr`
(`self.xyz[1]`).  `Nx, Nr = self.Nxr`. -/
structure CylParams (Nx Nr : ℕ) where
  Lx : ℝ
  twist : ℝ
  px : ℝ
  V : Fin Nr → Fin Nr → ℝ
  d : Fin Nr → ℝ
  w : Fin Nr → ℝ
  rr : Fin Nr → ℝ

/-- `self._Kx = self._kx2 = kx**2` with
`kx = kx0 + twist/Lx - px` and `kx0 = get_kxyz(Nxr, Lxr)[0]`. -/
def cylKx {Nx Nr : ℕ} (P : CylParams Nx Nr) (q : Fin Nx) : ℝ :=
  (kg Nx P.Lx q + P.twist / P.Lx - P.px) ^ 2

/-- `_tmp = np.sqrt(w*r)` from `CylindricalBasis._get_K`; `r2 = _tmp` and
`r1 = 1/_tmp`. -/
def cylS {Nx Nr : ℕ} (P : CylParams Nx Nr) (i : Fin Nr) : ℝ :=
  Real.sqrt (P.w i * P.rr i)

/-- The pair `K_data = (exp_K_r, exp_K_x)` cached by `apply_exp_K`. -/
def KData (Nx Nr : ℕ) := (Fin Nr → Fin Nr → ℝ) × (Fin Nx → ℝ)

/-- The miss-path computation of `apply_exp_K`:
`exp_K_r = _r1 * np.dot(V*np.exp(factor*d), V.T) * _r2` (entrywise
`np.dot(V*exp(f·d), V.T)[i,j] = Σ_m V[i,m]·exp(f·d[m])·V[j,m]`, row-scaled by
`r1 = 1/sqrt(w·r)` and column-scaled by `r2 = sqrt(w·r)`) and
`exp_K_x = np.exp(factor * self._Kx)`. -/
def computeKData {Nx Nr : ℕ} (P : CylParams Nx Nr) (factor : ℚ) :
    KData Nx Nr :=
  (fun i j => 1 / cylS P i *
      (∑ m : Fin Nr, P.V i m * Real.exp (factor * P.d m) * P.V j m) *
      cylS P j,
   fun q => Real.exp (factor * cylKx P q))

/-- Applying cached `K_data` to a field (the `twist == 0` branch of
`apply_exp_K`, with `axes = (-2, -1)`):
`tmp = ifft(exp_K_x * fft(y, axis=-2), axis=-2)` — `exp_K_x` has shape
`(Nx, 1)` so it multiplies along the x axis — followed by
`np.einsum('...ij,...yj->...yi', exp_K_r, tmp)`, the dense radial operator
along the last (radial) axis.  (For `twist != 0` the code builds `tmp` with a
trailing comma, a 1-tuple, which changes the result's shape: see
`applyExpKShape`.) -/
def applyKData {Nx Nr : ℕ} (kd : KData Nx Nr) (y : Fin Nx → Fin Nr → ℂ) :
    Fin Nx → Fin Nr → ℂ :=
  fun x i => ∑ j : Fin Nr, (kd.1 i j : ℂ) *
    ifft1 Nx (fun q => (kd.2 q : ℂ) * fft1 Nx (fun t => y t j) q) x

/-- `CylindricalBasis.apply_exp_K` (twist = 0 branch) with the cache state
passed explicitly: look up / update the cache via `K_step` and apply the
selected `K_data` to the field. -/
def applyExpK {Nx Nr : ℕ} (P : CylParams Nx Nr)
    (cache : List (ℚ × KData Nx Nr)) (factor : ℚ)
    (y : Fin Nx → Fin Nr → ℂ) :
    List (ℚ × KData Nx Nr) × (Fin Nx → Fin Nr → ℂ) :=
  let s := K_step (computeKData P) cache factor
  (s.1, applyKData s.2 y)

/-- Shape semantics of `apply_exp_K`'s return value, `yshape` listed from the
leading axis.  In the `twist != 0` branch the assignment
`tmp = self.y_twist*ifft(...),` ends with a comma, so `tmp` is a 1-tuple;
`np.einsum('...ij,...yj->...yi', exp_K_r, tmp)` converts it with
`np.asarray`, which prepends an axis of length 1, and the einsum output keeps
the operand's broadcast leading axes followed by `(y, i)` — i.e. the whole
`(1,) + y.shape`.  In the `twist == 0` branch `tmp` is the array itself and
the shape is preserved. -/
def applyExpKShape (twist : ℝ) (yshape : List ℕ) : List ℕ :=
  if twist = 0 then yshape else 1 :: yshape

/-- A concrete `CylindricalBasis` instance (`Nxr = (1,1)`, `Lx = 1`,
`twist = 0`, `px = 0`, trivial eigendecomposition `V = [[1]], d = [0]`,
weights and radius `1`). -/
def cylP1 : CylParams 1 1 :=
  ⟨1, 0, 0, fun _ _ => 1, fun _ => 0, fun _ => 1, fun _ => 1⟩

/-- A concrete `CylindricalBasis` instance like `cylP1` but with radial
eigenvalue `d = [1]`, so that `exp(factor*d)` depends on `factor`. -/
def cylP2 : CylParams 1 1 :=
  ⟨1, 0, 0, fun _ _ => 1, fun _ => 1, fun _ => 1, fun _ => 1⟩

/-! ## PeriodicBasis: N-dimensional transforms and the laplacian -/

/-- `PeriodicBasis.fftn` (N-dimensional forward DFT over the grid axes): a
grid point is a dependent tuple `j` with `j i : Fin (Nn i)`, and
`fftn(y)[k] = Σ_j y[j]·Π_i exp(-2πi·j_i·k_i/N_i)`. -/
def fftnD {dim : ℕ} (Nn : Fin dim → ℕ) (y : (∀ i, Fin (Nn i)) → ℂ)
    (k : ∀ i, Fin (Nn i)) : ℂ :=
  ∑ j : ∀ i, Fin (Nn i),
    y j * ∏ i : Fin dim, omega (Nn i) (-((j i : ℤ) * (k i : ℤ)))

/-- `PeriodicBasis.ifftn` (N-dimensional inverse DFT):
`ifftn(g)[j] = (Π_i N_i)⁻¹ · Σ_k g[k]·Π_i exp(2πi·j_i·k_i/N_i)`. -/
def ifftnD {dim : ℕ} (Nn : Fin dim → ℕ) (g : (∀ i, Fin (Nn i)) → ℂ)
    (j : ∀ i, Fin (Nn i)) : ℂ :=
  (∏ i : Fin dim, (Nn i : ℂ))⁻¹ *
    ∑ k : ∀ i, Fin (Nn i),
      g k * ∏ i : Fin dim, omega (Nn i) ((j i : ℤ) * (k i : ℤ))

/-- The momentum-space multiplier of `PeriodicBasis.laplacian`:
`K = -factor * sum(_p**2 for _p in self._pxyz)` evaluated at grid momentum
index `k`, exponentiated (`np.exp`, elementwise on the real array) when
`exp=True`. -/
def laplacianMult {dim : ℕ} (Nn : Fin dim → ℕ) (Ll : Fin dim → ℝ)
    (factor : ℝ) (expFlag : Bool) (k : ∀ i, Fin (Nn i)) : ℂ :=
  if expFlag then
    ((Real.exp (-factor * ∑ i : Fin dim, kg (Nn i) (Ll i) (k i) ^ 2) : ℝ) : ℂ)
  else ((-factor * ∑ i : Fin dim, kg (Nn i) (Ll i) (k i) ^ 2 : ℝ) : ℂ)

/-- `PeriodicBasis.laplacian`: `self.ifftn(K * self.fftn(y))` with the
transforms over exactly the trailing grid axes (`axes=range(s-dim, s)`) — a
leading (component) index `c` is untouched. -/
def periodicLaplacian {dim : ℕ} (Nn : Fin dim → ℕ) (Ll : Fin dim → ℝ)
    {C : Type*} (y : C → (∀ i, Fin (Nn i)) → ℂ) (factor : ℝ)
    (expFlag : Bool) : C → (∀ i, Fin (Nn i)) → ℂ :=
  fun c => ifftnD Nn (fun k => laplacianMult Nn Ll factor expFlag k *
    fftnD Nn (y c) k)

/-- The plane wave `exp(i·k0·x)` on the periodic grid, with lattice momentum
`k0_i = kg(N_i, L_i, m_i)` and `x` the `get_xyz` abscissa. -/
def planeWave {dim : ℕ} (Nn : Fin dim → ℕ) (Ll : Fin dim → ℝ)
    (m : ∀ i, Fin (Nn i)) (j : ∀ i, Fin (Nn i)) : ℂ :=
  Complex.exp (I *
    ((∑ i : Fin dim, kg (Nn i) (Ll i) (m i) * xg (Nn i) (Ll i) (j i) : ℝ) : ℂ))

/-! ## CartesianBasis: exact Coulomb convolution (`convolve_coulomb_exact`)

One- and two-dimensional instances of the dimension-generic numpy code.  A
numpy array is a value vector together with its dtype; only the
real-vs-complex distinction of the dtype is observable here, kept as a
boolean tag (`cplx`). -/

/-- A 1-D numpy array: values (complex numbers embed every numpy scalar) plus
the real/complex dtype tag. -/
structure NpVec (n : ℕ) where
  val : Fin n → ℂ
  cplx : Bool

/-- A 2-D numpy array with its real/complex dtype tag. -/
structure NpMat (n1 n2 : ℕ) where
  val : Fin n1 → Fin n2 → ℂ
  cplx : Bool

/-- The padded-grid index `K = 3q + l` pairing sublattice offset `l` with the
small-grid frequency index `q`. -/
def subIdx (N : ℕ) (q : Fin N) (l : Fin 3) : Fin (3 * N) :=
  ⟨3 * (q : ℕ) + (l : ℕ), by omega⟩

/-- One term of the `method='sum'` loop of
`CartesianBasis.convolve_coulomb_exact`, `dim = 1` instance: for offset
`l ∈ {0,1,2}` (`itertools.product(np.arange(3), repeat=dim)`),
`delta = 2π·l/3.0/L`, `exp_delta = exp(1j·delta·x)`,
`y_delta = exp_delta.conj() * y`, `k = sqrt((k_grid + delta)**2)` and
`dV = exp_delta * ifftn(C(k) * fftn(y_delta))`, with `C` the truncated
kernel times the form factors (`cartesianCkernel`). -/
def sumDV1 (N : ℕ) (L D : ℝ) (ffs : List (ℝ → ℝ)) (y : Fin N → ℂ)
    (l : Fin 3) (j : Fin N) : ℂ :=
  Complex.exp (I * ((2 * Real.pi * (l : ℕ) / 3 / L * xg N L j : ℝ) : ℂ)) *
    ifft1 N (fun q =>
      ((cartesianCkernel D ffs
          (Real.sqrt ((kg N L q + 2 * Real.pi * (l : ℕ) / 3 / L) ^ 2)) :
        ℝ) : ℂ) *
      fft1 N (fun t =>
        (starRingEnd ℂ)
            (Complex.exp
              (I * ((2 * Real.pi * (l : ℕ) / 3 / L * xg N L t : ℝ) : ℂ))) *
          y t) q) j

/-- `convolve_coulomb_exact(y, form_factors, method='sum')`, `dim = 1`
instance.  `D = sqrt((L**2).sum())` is the cell diagonal;
`V = np.zeros(y.shape, y.dtype)` starts with `y`'s dtype, the loop adds `dV`
when `V` is complex and `dV.real` otherwise, and the result is `V/dim**3`
with `dim = 1`. -/
def convSum1 (N : ℕ) (L : ℝ) (ffs : List (ℝ → ℝ)) (y : NpVec N) :
    NpVec N :=
  ⟨fun j =>
    (if y.cplx then
      ∑ l : Fin 3, sumDV1 N L (Real.sqrt (L ^ 2)) ffs y.val l j
     else
      ∑ l : Fin 3,
        (((sumDV1 N L (Real.sqrt (L ^ 2)) ffs y.val l j).re : ℝ) : ℂ)) /
      (1 : ℂ) ^ 3,
   y.cplx⟩

/-- `convolve_coulomb_exact(y, form_factors, method='pad')`, `dim = 1`
instance: zero-pad to `N_padded = 3N`, `L_padded = 3L`, evaluate the kernel
at `k = sqrt(sum(K**2 for K in get_kxyz(N_padded, L_padded)))`, transform,
multiply, inverse-transform and crop to the first `N` points.  The `fftn`
output is complex and is never cast back, so the result dtype is complex. -/
def convPad1 (N : ℕ) (L : ℝ) (ffs : List (ℝ → ℝ)) (y : NpVec N) :
    NpVec N :=
  ⟨fun j =>
    ifft1 (3 * N) (fun K =>
      ((cartesianCkernel (Real.sqrt (L ^ 2)) ffs
          (Real.sqrt (kg (3 * N) (3 * L) K ^ 2)) : ℝ) : ℂ) *
      fft1 (3 * N) (fun t =>
        if h : (t : ℕ) < N then y.val ⟨t, h⟩ else 0) K)
      ⟨j, by omega⟩,
   true⟩

/-- Two-dimensional forward DFT (`PeriodicBasis.fftn` at `dim = 2`). -/
def fft2 (N1 N2 : ℕ) (f : Fin N1 → Fin N2 → ℂ) (k1 : Fin N1)
    (k2 : Fin N2) : ℂ :=
  ∑ j1 : Fin N1, ∑ j2 : Fin N2,
    f j1 j2 * omega N1 (-((j1 : ℤ) * (k1 : ℤ))) *
      omega N2 (-((j2 : ℤ) * (k2 : ℤ)))

/-- Two-dimensional inverse DFT (`PeriodicBasis.ifftn` at `dim = 2`). -/
def ifft2 (N1 N2 : ℕ) (g : Fin N1 → Fin N2 → ℂ) (j1 : Fin N1)
    (j2 : Fin N2) : ℂ :=
  ((N1 : ℂ) * N2)⁻¹ *
    ∑ k1 : Fin N1, ∑ k2 : Fin N2,
      g k1 k2 * omega N1 ((j1 : ℤ) * (k1 : ℤ)) *
        omega N2 ((j2 : ℤ) * (k2 : ℤ))

/-- One term of the `method='sum'` loop, `dim = 2` instance: offset tuple
`l ∈ {0,1,2}²`, `delta_i = 2π·l_i/3.0/L_i`,
`exp_delta = exp(1j·(delta_1·x_1 + delta_2·x_2))`,
`k = sqrt((k_1+delta_1)² + (k_2+delta_2)²)`,
`dV = exp_delta * ifftn(C(k) * fftn(exp_delta.conj()*y))`. -/
def sumDV2 (N1 N2 : ℕ) (L1 L2 D : ℝ) (ffs : List (ℝ → ℝ))
    (y : Fin N1 → Fin N2 → ℂ) (l : Fin 3 × Fin 3) (p1 : Fin N1)
    (p2 : Fin N2) : ℂ :=
  Complex.exp (I *
      ((2 * Real.pi * (l.1 : ℕ) / 3 / L1 * xg N1 L1 p1 +
        2 * Real.pi * (l.2 : ℕ) / 3 / L2 * xg N2 L2 p2 : ℝ) : ℂ)) *
    ifft2 N1 N2 (fun q1 q2 =>
      ((cartesianCkernel D ffs
          (Real.sqrt ((kg N1 L1 q1 + 2 * Real.pi * (l.1 : ℕ) / 3 / L1) ^ 2 +
            (kg N2 L2 q2 + 2 * Real.pi * (l.2 : ℕ) / 3 / L2) ^ 2)) :
        ℝ) : ℂ) *
      fft2 N1 N2 (fun t1 t2 =>
        (starRingEnd ℂ)
            (Complex.exp (I *
              ((2 * Real.pi * (l.1 : ℕ) / 3 / L1 * xg N1 L1 t1 +
                2 * Real.pi * (l.2 : ℕ) / 3 / L2 * xg N2 L2 t2 : ℝ) : ℂ))) *
          y t1 t2) q1 q2) p1 p2

/-- The accumulated `V` of `method='sum'`, `dim = 2` instance: the loop runs
over all `3² = 9` offset tuples, adding `dV` into the complex-dtype `V` or
`dV.real` into the real-dtype `V`. -/
def convSum2accum (N1 N2 : ℕ) (L1 L2 : ℝ) (ffs : List (ℝ → ℝ))
    (y : NpMat N1 N2) (p1 : Fin N1) (p2 : Fin N2) : ℂ :=
  if y.cplx then
    ∑ l : Fin 3 × Fin 3,
      sumDV2 N1 N2 L1 L2 (Real.sqrt (L1 ^ 2 + L2 ^ 2)) ffs y.val l p1 p2
  else
    ∑ l : Fin 3 × Fin 3,
      (((sumDV2 N1 N2 L1 L2 (Real.sqrt (L1 ^ 2 + L2 ^ 2)) ffs y.val l p1
          p2).re : ℝ) : ℂ)

/-- `convolve_coulomb_exact(y, form_factors, method='sum')`, `dim = 2`
instance: the accumulated `V` divided by `dim**3 = 2**3 = 8`, keeping `y`'s
dtype. -/
def convSum2 (N1 N2 : ℕ) (L1 L2 : ℝ) (ffs : List (ℝ → ℝ))
    (y : NpMat N1 N2) : NpMat N1 N2 :=
  ⟨fun p1 p2 => convSum2accum N1 N2 L1 L2 ffs y p1 p2 / (2 : ℂ) ^ 3,
   y.cplx⟩

end

/-! ## Helper lemmas: discrete Fourier algebra -/

theorem omega_add (M : ℕ) (hM : M ≠ 0) (a b : ℤ) :
    omega M (a + b) = omega M a * omega M b := by
  have hMc : (M : ℂ) ≠ 0 := Nat.cast_ne_zero.mpr hM
  rw [omega, omega, omega, ← Complex.exp_add]
  congr 1
  field_simp
  ring

theorem omega_int_mul (M : ℕ) (a : ℤ) (j : ℕ) :
    omega M (a * j) = omega M a ^ j := by
  rw [omega, omega, ← Complex.exp_nat_mul]
  congr 1
  push_cast
  ring

theorem omega_dvd_eq_one (M : ℕ) (hM : M ≠ 0) (a : ℤ) (h : (M : ℤ) ∣ a) :
    omega M a = 1 := by
  obtain ⟨c, rfl⟩ := h
  have hMc : (M : ℂ) ≠ 0 := Nat.cast_ne_zero.mpr hM
  rw [omega]
  have harg : 2 * (Real.pi : ℂ) * I * (((M : ℤ) * c : ℤ) : ℂ) / M =
      c * (2 * Real.pi * I) := by
    push_cast
    field_simp
    ring
  rw [harg, Complex.exp_int_mul_two_pi_mul_I]

theorem omega_period (M : ℕ) (hM : M ≠ 0) (t s : ℤ) :
    omega M (t + M * s) = omega M t := by
  rw [omega_add M hM, omega_dvd_eq_one M hM _ ⟨s, rfl⟩, mul_one]

theorem omega_pow_self (M : ℕ) (hM : M ≠ 0) (a : ℤ) :
    omega M a ^ M = 1 := by
  rw [← omega_int_mul, mul_comm, omega_dvd_eq_one M hM _ ⟨a, rfl⟩]

theorem omega_ne_one (M : ℕ) (hM : M ≠ 0) (a : ℤ) (h : ¬ (M : ℤ) ∣ a) :
    omega M a ≠ 1 := by
  intro he
  apply h
  rw [omega, Complex.exp_eq_one_iff] at he
  obtain ⟨n, hn⟩ := he
  have hMc : (M : ℂ) ≠ 0 := Nat.cast_ne_zero.mpr hM
  have h2 : (2 : ℂ) * Real.pi * I ≠ 0 := by
    simp [Real.pi_ne_zero, Complex.I_ne_zero]
  have hcanc : (2 * (Real.pi : ℂ) * I) * a = (2 * (Real.pi : ℂ) * I) * (n * M) := by
    field_simp at hn
    linear_combination hn
  have hC : (a : ℂ) = n * M := mul_left_cancel₀ h2 hcanc
  have hZ : a = n * M := by exact_mod_cast hC
  exact ⟨n, by rw [hZ]; ring⟩

/-- Character orthogonality: `Σ_{j<M} exp(2πi·a·j/M)` is `M` when `M ∣ a`
and `0` otherwise. -/
theorem omega_sum (M : ℕ) (hM : 0 < M) (a : ℤ) :
    ∑ j : Fin M, omega M (a * j) = if (M : ℤ) ∣ a then (M : ℂ) else 0 := by
  have hM' : M ≠ 0 := hM.ne'
  have hpow : ∀ j : Fin M, omega M (a * j) = omega M a ^ (j : ℕ) := fun j =>
    omega_int_mul M a j
  rw [Finset.sum_congr rfl fun j _ => hpow j]
  by_cases h : (M : ℤ) ∣ a
  · rw [if_pos h]
    rw [omega_dvd_eq_one M hM' a h]
    simp
  · rw [if_neg h]
    have hz : omega M a ≠ 1 := omega_ne_one M hM' a h
    rw [Fin.sum_univ_eq_sum_range (fun j => omega M a ^ j), geom_sum_eq hz,
      omega_pow_self M hM', sub_self, zero_div]

theorem fin_sub_dvd_iff (N : ℕ) (j m : Fin N) :
    (N : ℤ) ∣ ((j : ℤ) - (m : ℤ)) ↔ j = m := by
  constructor
  · intro ⟨c, hc⟩
    have hj : ((j : ℤ)) < N := by exact_mod_cast j.isLt
    have hm : ((m : ℤ)) < N := by exact_mod_cast m.isLt
    have hj0 : (0 : ℤ) ≤ j := Int.ofNat_nonneg _
    have hm0 : (0 : ℤ) ≤ m := Int.ofNat_nonneg _
    have hN : (0 : ℤ) < N := by exact_mod_cast j.pos
    have hc1 : c < 1 := by
      have h1 : (N : ℤ) * c < N * 1 := by rw [mul_one, ← hc]; linarith
      exact (mul_lt_mul_left hN).mp h1
    have hc2 : (-1 : ℤ) < c := by
      have h1 : (N : ℤ) * (-1) < N * c := by rw [← hc]; linarith
      exact (mul_lt_mul_left hN).mp h1
    have hc0 : c = 0 := by omega
    rw [hc0, mul_zero] at hc
    have hjm : (j : ℤ) = m := by linarith
    exact Fin.ext (by exact_mod_cast hjm)
  · rintro rfl
    simp

/-- Inverting the 1-D DFT: `ifft(fft(f)) = f` exactly. -/
theorem ifft1_fft1 (N : ℕ) (hN : 0 < N) (f : Fin N → ℂ) (j : Fin N) :
    ifft1 N (fft1 N f) j = f j := by
  have hN' : N ≠ 0 := hN.ne'
  rw [ifft1]
  have hstep : ∀ k : Fin N,
      fft1 N f k * omega N ((j : ℤ) * k) =
        ∑ m : Fin N, f m * omega N (((j : ℤ) - m) * k) := by
    intro k
    rw [fft1, Finset.sum_mul]
    refine Finset.sum_congr rfl fun m _ => ?_
    rw [mul_assoc, ← omega_add N hN']
    congr 2
    ring
  rw [Finset.sum_congr rfl fun k _ => hstep k, Finset.sum_comm]
  have hinner : ∀ m : Fin N,
      (∑ k : Fin N, f m * omega N (((j : ℤ) - m) * k)) =
        f m * if (N : ℤ) ∣ ((j : ℤ) - m) then (N : ℂ) else 0 := by
    intro m
    rw [← Finset.mul_sum, omega_sum N hN]
  rw [Finset.sum_congr rfl fun m _ => hinner m]
  have hsingle :
      (∑ m : Fin N, f m * if (N : ℤ) ∣ ((j : ℤ) - m) then (N : ℂ) else 0) =
        f j * N := by
    rw [Finset.sum_eq_single j]
    · simp
    · intro m _ hm
      rw [if_neg fun hdvd => hm ((fin_sub_dvd_iff N j m).mp hdvd).symm,
        mul_zero]
    · intro h
      exact absurd (Finset.mem_univ j) h
  rw [hsingle]
  have hNc : (N : ℂ) ≠ 0 := Nat.cast_ne_zero.mpr hN'
  field_simp

/-! ## Theorems for C3 -/

/-- C3, counterexample: the claim says `SphericalBasis.coulomb_kernel` at
`k = 0` yields `D²/2` (with `D = 2R` the truncation diameter).  For `R = 1`
the code yields `4π·(2²/2) = 8π`, not `(2·1)²/2 = 2`. -/
theorem C3_counterexample : sphericalCoulombKernel 1 0 ≠ (2 * 1) ^ 2 / 2 := by
  have hpi := Real.pi_gt_three
  simp only [sphericalCoulombKernel, if_pos rfl]
  intro h
  norm_num at h
  nlinarith

/-- C3, amended: the zero-momentum value of each Coulomb kernel equals its
analytic limit *including the `4π` prefactor*: `PeriodicBasis.coulomb_kernel`
at `k = 0` yields `0`, while `SphericalBasis.coulomb_kernel` and the truncated
kernel `C` used inside `CartesianBasis.convolve_coulomb_exact` at `k = 0`
yield `4π·D²/2` (the masked division is filled with `D²/2` and then multiplied
by `4π`), with `D` the truncation diameter (`2R` for the spherical basis, the
cell diagonal for the cartesian basis). -/
theorem C3_kernel_zero_momentum (R D : ℝ) :
    periodicCoulombKernel 0 = 0 ∧
    sphericalCoulombKernel R 0 = 4 * Real.pi * ((2 * R) ^ 2 / 2) ∧
    cartesianCkernel D [] 0 = 4 * Real.pi * (D ^ 2 / 2) := by
  refine ⟨?_, ?_, ?_⟩
  · simp [periodicCoulombKernel]
  · simp [sphericalCoulombKernel]
  · simp [cartesianCkernel]

/-! ## Theorems for C4 -/

/-- C4: for every basis built on `BasisMixin` (i.e. for an arbitrary
`laplacian` operator) and all fields `a`, `b`, `grad_dot_grad(a, b)` equals
`(laplacian(a*b) - laplacian(a)*b - a*laplacian(b))/2`, computed from
`laplacian` alone; in particular `grad_dot_grad(a, a)` equals
`laplacian(a*a)/2 - a*laplacian(a)` pointwise. -/
theorem C4_grad_dot_grad {ι : Type*} (laplacian : (ι → ℂ) → (ι → ℂ))
    (a b : ι → ℂ) :
    gradDotGrad laplacian a b =
      (laplacian (a * b) - laplacian a * b - a * laplacian b) / 2 ∧
    gradDotGrad laplacian a a =
      fun j => laplacian (a * a) j / 2 - a j * laplacian a j := by
  refine ⟨rfl, funext fun j => ?_⟩
  show (laplacian (a * a) j - laplacian a j * a j - a j * laplacian a j) / 2 = _
  ring

/-! ## Helper lemmas: the exponential-operator cache -/

theorem allclose_self (f : ℚ) : allclose f f = true := by
  simp only [allclose, sub_self, abs_zero, decide_eq_true_eq]
  positivity

theorem K_lookup_concat {α : Type*} (l : List (ℚ × α)) (f : ℚ) (dta : α) :
    K_lookup (l ++ [(f, dta)]) f = some l.length := by
  unfold K_lookup
  rw [List.enum_append, List.foldl_append]
  simp [List.enumFrom, allclose_self]

theorem getD_concat {α : Type*} (l : List α) (e dflt : α) :
    (l ++ [e]).getD l.length dflt = e := by
  simp [List.getD_eq_getElem?_getD, List.getElem?_append_right (le_refl l.length)]

theorem K_step_of_lookup_none {α : Type*} (compute : ℚ → α)
    (cache : List (ℚ × α)) (f : ℚ) (h : K_lookup cache f = none) :
    K_step compute cache f =
      ((cache ++ [(f, compute f)]).drop
        ((cache ++ [(f, compute f)]).length - 3), compute f) := by
  unfold K_step
  rw [h]

theorem K_step_of_lookup_some {α : Type*} (compute : ℚ → α)
    (cache : List (ℚ × α)) (f : ℚ) (i : ℕ) (h : K_lookup cache f = some i) :
    K_step compute cache f = (cache, (cache.getD i (f, compute f)).2) := by
  unfold K_step
  rw [h]

/-! ## Theorems for C5 -/

/-- C5: starting from any cache state within capacity, each `apply_exp_K`
call leaves at most 3 entries; on a miss (no cached factor `allclose` to the
requested one) the new entry is appended at the back and, if capacity is
exceeded, the oldest (front) entry is evicted; on a hit no entry is added or
removed. -/
theorem C5_cache_bounded {Nx Nr : ℕ} (P : CylParams Nx Nr)
    (cache : List (ℚ × KData Nx Nr)) (factor : ℚ)
    (y : Fin Nx → Fin Nr → ℂ) (hlen : cache.length ≤ 3) :
    ((applyExpK P cache factor y).1.length ≤ 3) ∧
    (K_lookup cache factor = none →
      (applyExpK P cache factor y).1 =
        (if 3 ≤ cache.length then cache.drop (cache.length - 2) else cache)
          ++ [(factor, computeKData P factor)]) ∧
    (∀ i, K_lookup cache factor = some i →
      (applyExpK P cache factor y).1 = cache) := by
  refine ⟨?_, ?_, ?_⟩
  · cases h : K_lookup cache factor with
    | some i => simp only [applyExpK, K_step, h]; exact hlen
    | none =>
        simp only [applyExpK, K_step, h, List.length_drop]
        omega
  · intro h
    simp only [applyExpK, K_step, h]
    by_cases h3 : 3 ≤ cache.length
    · rw [if_pos h3]
      have hle : (cache ++ [(factor, computeKData P factor)]).length - 3
          ≤ cache.length := by
        simp [List.length_append]
      rw [List.drop_append_of_le_length hle]
      congr 1
      congr 1
      simp [List.length_append]
    · rw [if_neg h3]
      have h0 : (cache ++ [(factor, computeKData P factor)]).length - 3 = 0 := by
        simp only [List.length_append, List.length_singleton]
        omega
      rw [h0, List.drop_zero]
  · intro i h
    simp only [applyExpK, K_step, h]

/-- C5, witness: the empty cache is within capacity and the theorem applies
to it at `factor = 0` on the basis `cylP1`. -/
theorem C5_witness :
    ([] : List (ℚ × KData 1 1)).length ≤ 3 ∧
    (((applyExpK cylP1 [] 0 (fun _ _ => 1)).1.length ≤ 3) ∧
    (K_lookup ([] : List (ℚ × KData 1 1)) 0 = none →
      (applyExpK cylP1 [] 0 (fun _ _ => 1)).1 =
        (if 3 ≤ ([] : List (ℚ × KData 1 1)).length then
          ([] : List (ℚ × KData 1 1)).drop (([] : List (ℚ × KData 1 1)).length - 2)
        else []) ++ [(0, computeKData cylP1 0)]) ∧
    (∀ i, K_lookup ([] : List (ℚ × KData 1 1)) 0 = some i →
      (applyExpK cylP1 [] 0 (fun _ _ => 1)).1 = [])) :=
  ⟨by simp, C5_cache_bounded cylP1 [] 0 (fun _ _ => 1) (by simp)⟩

/-! ## Theorems for C6 -/

/-- C6: for a `CylindricalBasis` with `twist = 0` and `px = 0` (with the
eigendecomposition satisfying the `scipy.linalg.eigh` contract `V·Vᵀ = 1` and
positive `w·r`), `apply_exp_K(field, factor=0.0)` returns the field
unchanged, from any cache state with no entry `allclose` to `0` (in
particular the fresh, empty cache): the zero generator yields the identity
operator. -/
theorem C6_apply_exp_K_zero_identity {Nx Nr : ℕ} (P : CylParams Nx Nr)
    (hNx : 0 < Nx) (htw : P.twist = 0) (hpx : P.px = 0)
    (hV : ∀ i j : Fin Nr,
      (∑ m : Fin Nr, P.V i m * P.V j m) = if i = j then 1 else 0)
    (hwr : ∀ i, 0 < P.w i * P.rr i)
    (cache : List (ℚ × KData Nx Nr)) (hmiss : K_lookup cache 0 = none)
    (y : Fin Nx → Fin Nr → ℂ) :
    (applyExpK P cache 0 y).2 = y := by
  have hs : ∀ i, cylS P i ≠ 0 :=
    fun i => ne_of_gt (Real.sqrt_pos.mpr (hwr i))
  have hKr : ∀ i j, (computeKData P 0).1 i j = if i = j then 1 else 0 := by
    intro i j
    simp only [computeKData]
    have hexp : ∀ m : Fin Nr,
        P.V i m * Real.exp (((0 : ℚ) : ℝ) * P.d m) * P.V j m =
          P.V i m * P.V j m := by
      intro m
      simp
    rw [Finset.sum_congr rfl fun m _ => hexp m, hV i j]
    by_cases hij : i = j
    · subst hij
      rw [if_pos rfl]
      field_simp
      exact div_self (hs i)
    · rw [if_neg hij, mul_zero, zero_mul]
  have hKx : ∀ q, (computeKData P 0).2 q = 1 := by
    intro q
    simp [computeKData]
  simp only [applyExpK, K_step, hmiss]
  funext x i
  have htmp : ∀ j : Fin Nr,
      ifft1 Nx (fun q => ((computeKData P 0).2 q : ℂ) *
        fft1 Nx (fun t => y t j) q) x = y x j := by
    intro j
    have : (fun q => ((computeKData P 0).2 q : ℂ) *
        fft1 Nx (fun t => y t j) q) = fft1 Nx (fun t => y t j) := by
      funext q
      rw [hKx q]
      simp
    rw [this, ifft1_fft1 Nx hNx]
  show (∑ j : Fin Nr, ((computeKData P 0).1 i j : ℂ) *
      ifft1 Nx (fun q => ((computeKData P 0).2 q : ℂ) *
        fft1 Nx (fun t => y t j) q) x) = y x i
  rw [Finset.sum_congr rfl fun j _ => by rw [htmp j, hKr i j]]
  rw [Finset.sum_congr rfl fun j _ => by
    rw [show ((if i = j then (1 : ℝ) else 0 : ℝ) : ℂ) * y x j =
      if i = j then y x j else 0 by
        by_cases hij : i = j
        · rw [if_pos hij, if_pos hij]; simp
        · rw [if_neg hij, if_neg hij]; simp]]
  rw [Finset.sum_ite_eq (Finset.univ : Finset (Fin Nr)) i (fun j => y x j)]
  simp

/-- C6, witness: the theorem applied to the concrete basis `cylP1`
(`Nxr = (1,1)`, `twist = 0`, `px = 0`), the empty cache and the constant
field `1`. -/
theorem C6_witness :
    (0 < 1) ∧ cylP1.twist = 0 ∧ cylP1.px = 0 ∧
    (∀ i j : Fin 1,
      (∑ m : Fin 1, cylP1.V i m * cylP1.V j m) = if i = j then 1 else 0) ∧
    (∀ i, 0 < cylP1.w i * cylP1.rr i) ∧
    K_lookup ([] : List (ℚ × KData 1 1)) 0 = none ∧
    (applyExpK cylP1 [] 0 (fun _ _ => 1)).2 = (fun _ _ => 1) :=
  ⟨Nat.one_pos, rfl, rfl,
    fun i j => by rw [if_pos (Subsingleton.elim i j)]; simp [cylP1],
    fun i => by simp [cylP1],
    rfl,
    C6_apply_exp_K_zero_identity cylP1 Nat.one_pos rfl rfl
      (fun i j => by rw [if_pos (Subsingleton.elim i j)]; simp [cylP1])
      (fun i => by simp [cylP1]) [] rfl (fun _ _ => 1)⟩

/-! ## Theorems for C7 -/

/-- C7, amended: two *consecutive* calls to `apply_exp_K` with the same field
and the same factor return identical results from any starting cache state
(on a miss the appended entry is found again; on a hit the cache is
unchanged), so repeated calls reuse the cache deterministically. -/
theorem C7_consecutive_calls_deterministic {Nx Nr : ℕ} (P : CylParams Nx Nr)
    (cache : List (ℚ × KData Nx Nr)) (factor : ℚ)
    (y : Fin Nx → Fin Nr → ℂ) :
    (applyExpK P (applyExpK P cache factor y).1 factor y).2 =
      (applyExpK P cache factor y).2 := by
  cases h : K_lookup cache factor with
  | some i => simp only [applyExpK, K_step, h]
  | none =>
      have hle : (cache ++ [(factor, computeKData P factor)]).length - 3
          ≤ cache.length := by
        simp [List.length_append]
      simp only [applyExpK]
      rw [K_step_of_lookup_none _ _ _ h]
      rw [List.drop_append_of_le_length hle]
      rw [K_step_of_lookup_some _ _ _ _ (K_lookup_concat _ _ _)]
      rw [getD_concat]

/-- C7, counterexample: on the basis `cylP2`, calling `apply_exp_K` with
`factor = 0` after a call with `factor = 1e-9` (a cache state differing from
the fresh one) returns a different value than calling it with `factor = 0` on
the fresh cache: the `1e-9` entry is within `np.allclose` tolerance of `0`,
so the hit returns `exp(1e-9·K)` instead of the identity.  The cache state is
therefore observable in the returned values. -/
theorem C7_counterexample :
    (applyExpK cylP2
        (applyExpK cylP2 [] (1 / 1000000000) (fun _ _ => 1)).1
        0 (fun _ _ => 1)).2 ≠
      (applyExpK cylP2 [] 0 (fun _ _ => 1)).2 := by
  have hval : ∀ f : ℚ,
      applyKData (computeKData cylP2 f) (fun _ _ => (1 : ℂ)) 0 0 =
        ((Real.exp (f : ℝ) : ℝ) : ℂ) := by
    intro f
    have hKx0 : cylKx cylP2 0 = 0 := by
      simp [cylKx, cylP2, kg, fftfreqIdx]
    have hS : cylS cylP2 0 = 1 := by
      simp [cylS, cylP2]
    have hKr : (computeKData cylP2 f).1 0 0 = Real.exp (f : ℝ) := by
      simp only [computeKData, Fin.sum_univ_one, hS]
      rw [show cylP2.d 0 = 1 from rfl, show cylP2.V 0 0 = 1 from rfl]
      norm_num
    have hKx : (computeKData cylP2 f).2 0 = 1 := by
      simp only [computeKData, hKx0, mul_zero, Real.exp_zero]
    have hfun : (fun q : Fin 1 => ((computeKData cylP2 f).2 q : ℂ) *
        fft1 1 (fun _ => (1 : ℂ)) q) = fft1 1 (fun _ => (1 : ℂ)) := by
      funext q
      rw [show q = 0 from Subsingleton.elim q 0, hKx]
      simp
    simp only [applyKData, Fin.sum_univ_one, hKr, hfun]
    rw [ifft1_fft1 1 Nat.one_pos (fun _ => (1 : ℂ)) 0, mul_one]
  have hmiss : ∀ f : ℚ, K_lookup ([] : List (ℚ × KData 1 1)) f = none :=
    fun _ => rfl
  have hstate : (applyExpK cylP2 [] (1 / 1000000000) (fun _ _ => 1)).1 =
      [((1 : ℚ) / 1000000000, computeKData cylP2 (1 / 1000000000))] := by
    simp only [applyExpK, K_step, hmiss]
    rfl
  have hclose : allclose 0 (1 / 1000000000) = true := by
    rw [allclose, decide_eq_true_eq]
    rw [show |(0 : ℚ) - 1 / 1000000000| = 1 / 1000000000 by
      rw [zero_sub, abs_neg, abs_of_pos]
      norm_num]
    rw [show |(1 : ℚ) / 1000000000| = 1 / 1000000000 by
      rw [abs_of_pos]
      norm_num]
    norm_num
  have hhit : K_lookup
      [((1 : ℚ) / 1000000000, computeKData cylP2 (1 / 1000000000))] 0 =
        some 0 := by
    show (if allclose 0 (1 / 1000000000) then some 0 else none) = some 0
    rw [hclose]
    rfl
  intro heq
  have hpt := congrFun (congrFun heq 0) 0
  rw [hstate] at hpt
  simp only [applyExpK, K_step, hhit, hmiss] at hpt
  rw [show ([((1 : ℚ) / 1000000000,
      computeKData cylP2 (1 / 1000000000))].getD 0
        (0, computeKData cylP2 0)).2 =
      computeKData cylP2 (1 / 1000000000) from rfl] at hpt
  rw [hval (1 / 1000000000), hval 0] at hpt
  have : Real.exp (((1 : ℚ) / 1000000000 : ℚ) : ℝ) = Real.exp ((0 : ℚ) : ℝ) := by
    exact_mod_cast hpt
  rw [Rat.cast_zero, Real.exp_zero] at this
  rw [Real.exp_eq_one_iff] at this
  norm_num at this

/-! ## Theorems for C8 -/

/-- C8: evaluating the shape semantics of `apply_exp_K` at a `16×16` grid
field shows the `twist != 0` code path returns shape `(1, 16, 16)` — an extra
leading axis of length 1 from the trailing-comma 1-tuple
`tmp = self.y_twist*ifft(...),` — instead of the input shape `(16, 16)`,
while the `twist == 0` path preserves the shape. -/
theorem C8_twist_shape_bug :
    applyExpKShape 1 [16, 16] = [1, 16, 16] ∧
    ([1, 16, 16] : List ℕ) ≠ [16, 16] ∧
    applyExpKShape 0 [16, 16] = [16, 16] := by
  refine ⟨?_, by decide, ?_⟩
  · rw [applyExpKShape, if_neg one_ne_zero]
  · rw [applyExpKShape, if_pos rfl]

/-! ## Helper lemmas: plane waves on the periodic grid -/

theorem fftfreqIdx_dvd_sub (n : ℕ) (m : Fin n) :
    (n : ℤ) ∣ (fftfreqIdx n m - m) := by
  unfold fftfreqIdx
  split
  · simp
  · exact ⟨-1, by ring⟩

theorem fftfreqIdx_sub_dvd_iff (n : ℕ) (m k : Fin n) :
    (n : ℤ) ∣ (fftfreqIdx n m - k) ↔ k = m := by
  rw [show fftfreqIdx n m - (k : ℤ) =
    (fftfreqIdx n m - m) + ((m : ℤ) - k) by ring]
  rw [Int.dvd_add_right (fftfreqIdx_dvd_sub n m)]
  rw [fin_sub_dvd_iff n m k]
  exact eq_comm

/-- One axis of the plane-wave phase: `exp(i·kg(m)·xg(v))` equals the root of
unity `ω_n^(e(m)·v)` times a `v`-independent unimodular constant, where
`e(m) = fftfreqIdx n m`. -/
theorem planewave_axis_factor (n : ℕ) (L : ℝ) (hL : L ≠ 0) (m v : Fin n) :
    Complex.exp (I * ((kg n L m * xg n L v : ℝ) : ℂ)) =
      omega n (fftfreqIdx n m * v) *
        Complex.exp (-(Real.pi : ℂ) * I * (fftfreqIdx n m : ℤ)) := by
  have hn : (n : ℝ) ≠ 0 := Nat.cast_ne_zero.mpr m.pos.ne'
  have hnC : (n : ℂ) ≠ 0 := Nat.cast_ne_zero.mpr m.pos.ne'
  have hLC : (L : ℂ) ≠ 0 := Complex.ofReal_ne_zero.mpr hL
  rw [omega, ← Complex.exp_add]
  congr 1
  rw [kg, xg]
  push_cast
  field_simp
  ring

/-- One axis of the DFT of a plane wave: summing the phase against
`ω_n^(-v·k)` gives `n` times the unimodular constant when `k = m` and `0`
otherwise. -/
theorem planewave_axis_sum (n : ℕ) (L : ℝ) (hL : L ≠ 0) (m k : Fin n) :
    (∑ v : Fin n, Complex.exp (I * ((kg n L m * xg n L v : ℝ) : ℂ)) *
        omega n (-((v : ℤ) * (k : ℤ)))) =
      if k = m then
        (n : ℂ) * Complex.exp (-(Real.pi : ℂ) * I * (fftfreqIdx n m : ℤ))
      else 0 := by
  have hn : 0 < n := m.pos
  have hterm : ∀ v : Fin n,
      Complex.exp (I * ((kg n L m * xg n L v : ℝ) : ℂ)) *
        omega n (-((v : ℤ) * (k : ℤ))) =
      Complex.exp (-(Real.pi : ℂ) * I * (fftfreqIdx n m : ℤ)) *
        omega n ((fftfreqIdx n m - k) * v) := by
    intro v
    rw [planewave_axis_factor n L hL m v]
    rw [show (fftfreqIdx n m - (k : ℤ)) * v =
      fftfreqIdx n m * v + -((v : ℤ) * k) by ring]
    rw [omega_add n hn.ne']
    ring
  rw [Finset.sum_congr rfl fun v _ => hterm v, ← Finset.mul_sum]
  rw [omega_sum n hn]
  by_cases hk : k = m
  · rw [if_pos hk, if_pos ((fftfreqIdx_sub_dvd_iff n m k).mpr hk)]
    ring
  · rw [if_neg hk,
      if_neg (fun hdvd => hk ((fftfreqIdx_sub_dvd_iff n m k).mp hdvd)),
      mul_zero]

theorem prod_ite_eq_pi {dim : ℕ} (Nn : Fin dim → ℕ)
    (k m : ∀ i, Fin (Nn i)) (t : Fin dim → ℂ) :
    (∏ i : Fin dim, if k i = m i then t i else 0) =
      if k = m then ∏ i : Fin dim, t i else 0 := by
  by_cases h : k = m
  · subst h
    simp
  · rw [if_neg h]
    obtain ⟨i, hi⟩ := Function.ne_iff.mp h
    exact Finset.prod_eq_zero (Finset.mem_univ i) (if_neg hi)

/-! ## Theorems for C9 -/

/-- C9: `PeriodicBasis.laplacian(y, factor, exp=False)` equals the inverse
N-dimensional DFT of `-factor·Σ_i k_i²` times the forward DFT of `y`,
transformed over exactly the trailing grid axes (any leading component index
`c` is untouched), with `k_i` the discrete Fourier frequencies scaled by
`2π/extent`; consequently every plane wave `exp(i·k0·x)` with lattice
momentum `k0 = kg(m)` representable on the grid is an exact eigenfunction:
`laplacian(field, factor) = -factor·|k0|²·field`. -/
theorem C9_periodic_laplacian_plane_wave {dim : ℕ} (Nn : Fin dim → ℕ)
    (Ll : Fin dim → ℝ) (hL : ∀ i, Ll i ≠ 0) {C : Type*} (A : C → ℂ)
    (m : ∀ i, Fin (Nn i)) (factor : ℝ) :
    (∀ y : C → (∀ i, Fin (Nn i)) → ℂ,
      periodicLaplacian Nn Ll y factor false =
        fun c => ifftnD Nn (fun k =>
          ((-factor * ∑ i : Fin dim, kg (Nn i) (Ll i) (k i) ^ 2 : ℝ) : ℂ) *
            fftnD Nn (y c) k)) ∧
    periodicLaplacian Nn Ll (fun c j => A c * planeWave Nn Ll m j) factor
        false =
      fun c j =>
        ((-factor * ∑ i : Fin dim, kg (Nn i) (Ll i) (m i) ^ 2 : ℝ) : ℂ) *
          (A c * planeWave Nn Ll m j) := by
  constructor
  · intro y
    rfl
  · funext c j
    have hfft : ∀ k : ∀ i, Fin (Nn i),
        fftnD Nn (fun j => A c * planeWave Nn Ll m j) k =
          if k = m then
            A c * ∏ i : Fin dim, ((Nn i : ℂ) *
              Complex.exp (-(Real.pi : ℂ) * I * (fftfreqIdx (Nn i) (m i) : ℤ)))
          else 0 := by
      intro k
      rw [fftnD]
      have h1 : ∀ j : ∀ i, Fin (Nn i),
          (A c * planeWave Nn Ll m j) *
            ∏ i : Fin dim, omega (Nn i) (-((j i : ℤ) * (k i : ℤ))) =
          A c * ∏ i : Fin dim,
            (Complex.exp (I *
              ((kg (Nn i) (Ll i) (m i) * xg (Nn i) (Ll i) (j i) : ℝ) : ℂ)) *
              omega (Nn i) (-((j i : ℤ) * (k i : ℤ)))) := by
        intro j
        rw [planeWave]
        rw [show (I * ((∑ i : Fin dim,
            kg (Nn i) (Ll i) (m i) * xg (Nn i) (Ll i) (j i) : ℝ) : ℂ)) =
          ∑ i : Fin dim, I *
            ((kg (Nn i) (Ll i) (m i) * xg (Nn i) (Ll i) (j i) : ℝ) : ℂ) by
          push_cast
          rw [Finset.mul_sum]]
        rw [Complex.exp_sum]
        rw [Finset.prod_mul_distrib]
        ring
      rw [Finset.sum_congr rfl fun j _ => h1 j, ← Finset.mul_sum]
      rw [← Fintype.prod_sum (fun i (v : Fin (Nn i)) =>
        Complex.exp (I *
          ((kg (Nn i) (Ll i) (m i) * xg (Nn i) (Ll i) v : ℝ) : ℂ)) *
          omega (Nn i) (-((v : ℤ) * (k i : ℤ))))]
      rw [Finset.prod_congr rfl fun i _ =>
        planewave_axis_sum (Nn i) (Ll i) (hL i) (m i) (k i)]
      rw [prod_ite_eq_pi Nn k m]
      rw [mul_ite, mul_zero]
    show ifftnD Nn (fun k => laplacianMult Nn Ll factor false k *
        fftnD Nn (fun j => A c * planeWave Nn Ll m j) k) j = _
    rw [ifftnD]
    rw [Finset.sum_congr rfl fun k _ => by rw [hfft k]]
    have hsingle :
        (∑ k : ∀ i, Fin (Nn i),
          (laplacianMult Nn Ll factor false k *
            if k = m then
              A c * ∏ i : Fin dim, ((Nn i : ℂ) *
                Complex.exp (-(Real.pi : ℂ) * I *
                  (fftfreqIdx (Nn i) (m i) : ℤ)))
            else 0) *
            ∏ i : Fin dim, omega (Nn i) ((j i : ℤ) * (k i : ℤ))) =
        laplacianMult Nn Ll factor false m *
          (A c * ∏ i : Fin dim, ((Nn i : ℂ) *
            Complex.exp (-(Real.pi : ℂ) * I *
              (fftfreqIdx (Nn i) (m i) : ℤ)))) *
          ∏ i : Fin dim, omega (Nn i) ((j i : ℤ) * (m i : ℤ)) := by
      rw [Finset.sum_eq_single m]
      · rw [if_pos rfl]
      · intro b _ hb
        rw [if_neg hb, mul_zero, zero_mul]
      · intro hm
        exact absurd (Finset.mem_univ m) hm
    rw [hsingle]
    have hpwj : planeWave Nn Ll m j =
        ∏ i : Fin dim, (omega (Nn i) ((j i : ℤ) * (m i : ℤ)) *
          Complex.exp (-(Real.pi : ℂ) * I *
            (fftfreqIdx (Nn i) (m i) : ℤ))) := by
      rw [planeWave]
      rw [show (I * ((∑ i : Fin dim,
          kg (Nn i) (Ll i) (m i) * xg (Nn i) (Ll i) (j i) : ℝ) : ℂ)) =
        ∑ i : Fin dim, I *
          ((kg (Nn i) (Ll i) (m i) * xg (Nn i) (Ll i) (j i) : ℝ) : ℂ) by
        push_cast
        rw [Finset.mul_sum]]
      rw [Complex.exp_sum]
      refine Finset.prod_congr rfl fun i _ => ?_
      rw [planewave_axis_factor (Nn i) (Ll i) (hL i) (m i) (j i)]
      congr 1
      obtain ⟨s, hs⟩ := fftfreqIdx_dvd_sub (Nn i) (m i)
      rw [show fftfreqIdx (Nn i) (m i) * (j i : ℤ) =
        (j i : ℤ) * (m i : ℤ) + (Nn i : ℤ) * (s * (j i : ℤ)) by
        linear_combination (j i : ℤ) * hs]
      rw [omega_period (Nn i) (m i).pos.ne']
    rw [hpwj]
    rw [show laplacianMult Nn Ll factor false m =
      ((-factor * ∑ i : Fin dim, kg (Nn i) (Ll i) (m i) ^ 2 : ℝ) : ℂ) from
      rfl]
    rw [Finset.prod_mul_distrib, Finset.prod_mul_distrib]
    have hNz : (∏ i : Fin dim, (Nn i : ℂ)) ≠ 0 :=
      Finset.prod_ne_zero_iff.mpr fun i _ =>
        Nat.cast_ne_zero.mpr (m i).pos.ne'
    field_simp
    ring

/-- C9, witness: the theorem instantiated at a concrete one-dimensional grid
with `N = 2`, `L = 1`, unit amplitude, lattice momentum index `m = 0` and
`factor = 1`. -/
theorem C9_witness :
    (∀ i : Fin 1, ((fun _ : Fin 1 => (1 : ℝ)) i) ≠ 0) ∧
    ((∀ y : Unit → (∀ i : Fin 1, Fin ((fun _ : Fin 1 => 2) i)) → ℂ,
      periodicLaplacian (fun _ : Fin 1 => 2) (fun _ : Fin 1 => (1 : ℝ))
          y 1 false =
        fun c => ifftnD (fun _ : Fin 1 => 2) (fun k =>
          ((-1 * ∑ i : Fin 1, kg 2 1 (k i) ^ 2 : ℝ) : ℂ) *
            fftnD (fun _ : Fin 1 => 2) (y c) k)) ∧
    periodicLaplacian (fun _ : Fin 1 => 2) (fun _ : Fin 1 => (1 : ℝ))
        (fun (c : Unit) j => (fun _ : Unit => (1 : ℂ)) c *
          planeWave (fun _ : Fin 1 => 2) (fun _ : Fin 1 => (1 : ℝ))
            (fun _ => (0 : Fin 2)) j) 1 false =
      fun c j =>
        ((-1 * ∑ i : Fin 1, kg 2 1 ((fun _ : Fin 1 => (0 : Fin 2)) i) ^ 2 :
            ℝ) : ℂ) *
          ((fun _ : Unit => (1 : ℂ)) c *
            planeWave (fun _ : Fin 1 => 2) (fun _ : Fin 1 => (1 : ℝ))
              (fun _ => (0 : Fin 2)) j)) :=
  ⟨fun _ => one_ne_zero,
    C9_periodic_laplacian_plane_wave (fun _ => 2) (fun _ => 1)
      (fun _ => one_ne_zero) (fun _ => 1) (fun _ => 0) 1⟩

/-! ## Theorems for C10 -/

/-- C10: for a real-dtype input field, `convolve_coulomb_exact` with
`method='sum'` returns an array of the same real dtype (accumulating only the
real part of each contribution, so its values are real numbers), whereas
`method='pad'` returns a complex-dtype array (the raw inverse-FFT output is
not cast back to real): the two exact methods differ in output dtype at the
public interface.  Shown for the 1-D and 2-D instances. -/
theorem C10_sum_real_pad_complex_dtype (N : ℕ) (L : ℝ)
    (ffs : List (ℝ → ℝ)) (v : Fin N → ℂ) (N1 N2 : ℕ) (L1 L2 : ℝ)
    (ffs2 : List (ℝ → ℝ)) (w : Fin N1 → Fin N2 → ℂ) :
    (convSum1 N L ffs ⟨v, false⟩).cplx = false ∧
    (∀ j, ((convSum1 N L ffs ⟨v, false⟩).val j).im = 0) ∧
    (convPad1 N L ffs ⟨v, false⟩).cplx = true ∧
    (convSum2 N1 N2 L1 L2 ffs2 ⟨w, false⟩).cplx = false ∧
    (∀ p1 p2, ((convSum2 N1 N2 L1 L2 ffs2 ⟨w, false⟩).val p1 p2).im = 0) := by
  refine ⟨rfl, ?_, rfl, rfl, ?_⟩
  · intro j
    show ((∑ l : Fin 3,
        (((sumDV1 N L (Real.sqrt (L ^ 2)) ffs v l j).re : ℝ) : ℂ)) /
          (1 : ℂ) ^ 3).im = 0
    rw [← Complex.ofReal_sum, show ((1 : ℂ) ^ 3) = ((1 : ℝ) : ℂ) by norm_num,
      ← Complex.ofReal_div]
    exact Complex.ofReal_im _
  · intro p1 p2
    show ((∑ l : Fin 3 × Fin 3,
        (((sumDV2 N1 N2 L1 L2 (Real.sqrt (L1 ^ 2 + L2 ^ 2)) ffs2 w l p1
            p2).re : ℝ) : ℂ)) / (2 : ℂ) ^ 3).im = 0
    rw [← Complex.ofReal_sum, show ((2 : ℂ) ^ 3) = ((8 : ℝ) : ℂ) by norm_num,
      ← Complex.ofReal_div]
    exact Complex.ofReal_im _

/-! ## Theorems for C2 -/

theorem exp_I_mul_conj (t : ℝ) :
    Complex.exp (I * (t : ℂ)) *
      (starRingEnd ℂ) (Complex.exp (I * (t : ℂ))) = 1 := by
  rw [← Complex.exp_conj, ← Complex.exp_add]
  rw [show (I * (t : ℂ) + (starRingEnd ℂ) (I * (t : ℂ))) = 0 by
    simp [map_mul, Complex.conj_I, Complex.conj_ofReal]]
  exact Complex.exp_zero

theorem cartesianCkernel_nonneg (D k : ℝ) : 0 ≤ cartesianCkernel D [] k := by
  unfold cartesianCkernel
  simp only [List.map_nil, List.prod_nil, mul_one]
  split
  · positivity
  · apply mul_nonneg (by positivity)
    apply div_nonneg
    · linarith [Real.cos_le_one (D * k)]
    · positivity

theorem fft2_one_one (w : Fin 1 → Fin 1 → ℂ) (k1 k2 : Fin 1) :
    fft2 1 1 w k1 k2 = w 0 0 := by
  simp [fft2, omega, Fin.sum_univ_one, Fin.val_eq_zero]

theorem ifft2_one_one (g : Fin 1 → Fin 1 → ℂ) (j1 j2 : Fin 1) :
    ifft2 1 1 g j1 j2 = g 0 0 := by
  simp [ifft2, omega, Fin.sum_univ_one, Fin.val_eq_zero]

/-- C2, counterexample: for the 2-dimensional basis with `Nxyz = (1, 1)`,
`Lxyz = (1, 1)` and the real field `y = 1`, the result of `method='sum'` is
the accumulated sum divided by `dim**3 = 8`, which differs from the
accumulated sum divided by `dim**dim = 2² = 4` claimed by the spec (the
accumulated sum is strictly positive, so the two normalizations differ). -/
theorem C2_counterexample :
    (convSum2 1 1 1 1 [] ⟨fun _ _ => 1, false⟩).val 0 0 ≠
      convSum2accum 1 1 1 1 [] ⟨fun _ _ => 1, false⟩ 0 0 / (2 : ℂ) ^ 2 := by
  have hdV : ∀ l : Fin 3 × Fin 3,
      sumDV2 1 1 1 1 (Real.sqrt ((1 : ℝ) ^ 2 + 1 ^ 2)) [] (fun _ _ => 1)
          l 0 0 =
        ((cartesianCkernel (Real.sqrt ((1 : ℝ) ^ 2 + 1 ^ 2)) []
          (Real.sqrt ((kg 1 1 0 + 2 * Real.pi * ((l.1 : ℕ) : ℝ) / 3 / 1) ^ 2 +
            (kg 1 1 0 + 2 * Real.pi * ((l.2 : ℕ) : ℝ) / 3 / 1) ^ 2)) :
          ℝ) : ℂ) := by
    intro l
    rw [sumDV2, ifft2_one_one, fft2_one_one]
    linear_combination
      ((cartesianCkernel (Real.sqrt ((1 : ℝ) ^ 2 + 1 ^ 2)) []
        (Real.sqrt ((kg 1 1 0 + 2 * Real.pi * ((l.1 : ℕ) : ℝ) / 3 / 1) ^ 2 +
          (kg 1 1 0 + 2 * Real.pi * ((l.2 : ℕ) : ℝ) / 3 / 1) ^ 2)) : ℝ) : ℂ) *
        exp_I_mul_conj
          (2 * Real.pi * ((l.1 : ℕ) : ℝ) / 3 / 1 * xg 1 1 0 +
            2 * Real.pi * ((l.2 : ℕ) : ℝ) / 3 / 1 * xg 1 1 0)
  have haccum : convSum2accum 1 1 1 1 [] ⟨fun _ _ => 1, false⟩ 0 0 =
      ((∑ l : Fin 3 × Fin 3,
        cartesianCkernel (Real.sqrt ((1 : ℝ) ^ 2 + 1 ^ 2)) []
          (Real.sqrt ((kg 1 1 0 + 2 * Real.pi * ((l.1 : ℕ) : ℝ) / 3 / 1) ^ 2 +
            (kg 1 1 0 + 2 * Real.pi * ((l.2 : ℕ) : ℝ) / 3 / 1) ^ 2)) :
        ℝ) : ℂ) := by
    show (∑ l : Fin 3 × Fin 3,
        (((sumDV2 1 1 1 1 (Real.sqrt ((1 : ℝ) ^ 2 + 1 ^ 2)) []
          (fun _ _ => 1) l 0 0).re : ℝ) : ℂ)) = _
    rw [Finset.sum_congr rfl fun l _ => by rw [hdV l, Complex.ofReal_re]]
    exact (Complex.ofReal_sum _ _).symm
  have hker00 : cartesianCkernel (Real.sqrt ((1 : ℝ) ^ 2 + 1 ^ 2)) [] 0 =
      4 * Real.pi := by
    unfold cartesianCkernel
    rw [if_pos rfl]
    rw [Real.sq_sqrt (by norm_num : (0 : ℝ) ≤ (1 : ℝ) ^ 2 + 1 ^ 2)]
    norm_num
  have hpos : (0 : ℝ) <
      ∑ l : Fin 3 × Fin 3,
        cartesianCkernel (Real.sqrt ((1 : ℝ) ^ 2 + 1 ^ 2)) []
          (Real.sqrt ((kg 1 1 0 + 2 * Real.pi * ((l.1 : ℕ) : ℝ) / 3 / 1) ^ 2 +
            (kg 1 1 0 + 2 * Real.pi * ((l.2 : ℕ) : ℝ) / 3 / 1) ^ 2)) := by
    have h00 :
        cartesianCkernel (Real.sqrt ((1 : ℝ) ^ 2 + 1 ^ 2)) []
          (Real.sqrt
            ((kg 1 1 0 + 2 * Real.pi * (((0 : Fin 3) : ℕ) : ℝ) / 3 / 1) ^ 2 +
             (kg 1 1 0 + 2 * Real.pi * (((0 : Fin 3) : ℕ) : ℝ) / 3 / 1) ^ 2)) =
          4 * Real.pi := by
      rw [show kg 1 1 0 + 2 * Real.pi * (((0 : Fin 3) : ℕ) : ℝ) / 3 / 1 = 0 by
        simp [kg, fftfreqIdx]]
      rw [show Real.sqrt ((0 : ℝ) ^ 2 + 0 ^ 2) = 0 by simp]
      exact hker00
    have hle := Finset.single_le_sum
      (f := fun l : Fin 3 × Fin 3 =>
        cartesianCkernel (Real.sqrt ((1 : ℝ) ^ 2 + 1 ^ 2)) []
          (Real.sqrt ((kg 1 1 0 + 2 * Real.pi * ((l.1 : ℕ) : ℝ) / 3 / 1) ^ 2 +
            (kg 1 1 0 + 2 * Real.pi * ((l.2 : ℕ) : ℝ) / 3 / 1) ^ 2)))
      (fun l _ => cartesianCkernel_nonneg _ _)
      (Finset.mem_univ ((0 : Fin 3), (0 : Fin 3)))
    have hpi := Real.pi_pos
    calc (0 : ℝ) < 4 * Real.pi := by linarith
    _ ≤ _ := by
      rw [← h00]
      exact hle
  intro heq
  have heq' : ((∑ l : Fin 3 × Fin 3,
      cartesianCkernel (Real.sqrt ((1 : ℝ) ^ 2 + 1 ^ 2)) []
        (Real.sqrt ((kg 1 1 0 + 2 * Real.pi * ((l.1 : ℕ) : ℝ) / 3 / 1) ^ 2 +
          (kg 1 1 0 + 2 * Real.pi * ((l.2 : ℕ) : ℝ) / 3 / 1) ^ 2)) :
      ℝ) : ℂ) / (2 : ℂ) ^ 3 =
      ((∑ l : Fin 3 × Fin 3,
      cartesianCkernel (Real.sqrt ((1 : ℝ) ^ 2 + 1 ^ 2)) []
        (Real.sqrt ((kg 1 1 0 + 2 * Real.pi * ((l.1 : ℕ) : ℝ) / 3 / 1) ^ 2 +
          (kg 1 1 0 + 2 * Real.pi * ((l.2 : ℕ) : ℝ) / 3 / 1) ^ 2)) :
      ℝ) : ℂ) / (2 : ℂ) ^ 2 := by
    rw [← haccum]
    exact heq
  have hzero : ((∑ l : Fin 3 × Fin 3,
      cartesianCkernel (Real.sqrt ((1 : ℝ) ^ 2 + 1 ^ 2)) []
        (Real.sqrt ((kg 1 1 0 + 2 * Real.pi * ((l.1 : ℕ) : ℝ) / 3 / 1) ^ 2 +
          (kg 1 1 0 + 2 * Real.pi * ((l.2 : ℕ) : ℝ) / 3 / 1) ^ 2)) :
      ℝ) : ℂ) = 0 := by
    have hcross := (div_eq_div_iff
      (by norm_num : ((2 : ℂ) ^ 3) ≠ 0)
      (by norm_num : ((2 : ℂ) ^ 2) ≠ 0)).mp heq'
    linear_combination (-(1 : ℂ) / 4) * hcross
  rw [Complex.ofReal_eq_zero] at hzero
  linarith

/-- C2, amended: in `CartesianBasis.convolve_coulomb_exact` with
`method='sum'` (2-D instance), the loop accumulates exactly `3**dim = 9`
phase-shifted periodic-convolution contributions — one per offset tuple in
`{0,1,2}²` — and the accumulated result is normalized by dividing by the
spatial dimensionality *cubed* (`dim**3 = 8`), not by `dim**dim`. -/
theorem C2_sum_normalization (N1 N2 : ℕ) (L1 L2 : ℝ)
    (ffs : List (ℝ → ℝ)) (y : NpMat N1 N2) (p1 : Fin N1) (p2 : Fin N2) :
    (convSum2 N1 N2 L1 L2 ffs y).val p1 p2 =
      convSum2accum N1 N2 L1 L2 ffs y p1 p2 / (2 : ℂ) ^ 3 ∧
    (Finset.univ : Finset (Fin 3 × Fin 3)).card = 3 ^ 2 :=
  ⟨rfl, by decide⟩

/-! ## Helper lemmas for the sublattice decomposition (C1) -/

theorem omega_three (N : ℕ) (hN : N ≠ 0) (a : ℤ) :
    omega (3 * N) (3 * a) = omega N a := by
  have hNc : (N : ℂ) ≠ 0 := Nat.cast_ne_zero.mpr hN
  rw [omega, omega]
  congr 1
  push_cast
  field_simp
  ring

theorem omega_conj (M : ℕ) (t : ℤ) :
    (starRingEnd ℂ) (omega M t) = omega M (-t) := by
  rw [omega, omega, ← Complex.exp_conj]
  congr 1
  simp [map_div₀, map_mul, map_ofNat, Complex.conj_I, Complex.conj_ofReal]

theorem c3_mul_conj (l : Fin 3) :
    Complex.exp (-(Real.pi : ℂ) * I * ((l : ℕ) : ℝ) / 3) *
      Complex.exp ((Real.pi : ℂ) * I * ((l : ℕ) : ℝ) / 3) = 1 := by
  rw [← Complex.exp_add,
    show (-(Real.pi : ℂ) * I * ((l : ℕ) : ℝ) / 3 +
      (Real.pi : ℂ) * I * ((l : ℕ) : ℝ) / 3) = 0 by ring,
    Complex.exp_zero]

theorem conj_c3 (l : Fin 3) :
    (starRingEnd ℂ) (Complex.exp (-(Real.pi : ℂ) * I * ((l : ℕ) : ℝ) / 3)) =
      Complex.exp ((Real.pi : ℂ) * I * ((l : ℕ) : ℝ) / 3) := by
  rw [← Complex.exp_conj]
  congr 1
  simp [map_div₀, map_mul, map_ofNat, Complex.conj_I, Complex.conj_ofReal]

theorem fftfreqIdx_mul3 (N : ℕ) (hN : Even N) (q : Fin N) (l : Fin 3) :
    fftfreqIdx (3 * N) (subIdx N q l) = 3 * fftfreqIdx N q + (l : ℤ) := by
  obtain ⟨t, rfl⟩ := hN
  have hq := q.isLt
  have hl := l.isLt
  unfold fftfreqIdx subIdx
  simp only
  split <;> split <;> push_cast <;> omega

theorem kg_pad_eq (N : ℕ) (hN : Even N) (L : ℝ) (hL : L ≠ 0) (q : Fin N)
    (l : Fin 3) :
    kg (3 * N) (3 * L) (subIdx N q l) =
      kg N L q + 2 * Real.pi * ((l : ℕ) : ℝ) / 3 / L := by
  have hq := q.pos
  have hNr : (N : ℝ) ≠ 0 := Nat.cast_ne_zero.mpr hq.ne'
  rw [kg, kg, fftfreqIdx_mul3 N hN q l]
  push_cast
  field_simp
  ring

theorem sum_phase_factor (N : ℕ) (hN : N ≠ 0) (L : ℝ) (hL : L ≠ 0)
    (l : Fin 3) (t : Fin N) :
    Complex.exp (I * ((2 * Real.pi * ((l : ℕ) : ℝ) / 3 / L * xg N L t :
        ℝ) : ℂ)) =
      omega (3 * N) ((l : ℤ) * (t : ℤ)) *
        Complex.exp (-(Real.pi : ℂ) * I * ((l : ℕ) : ℝ) / 3) := by
  have hNc : (N : ℂ) ≠ 0 := Nat.cast_ne_zero.mpr hN
  have hLc : (L : ℂ) ≠ 0 := Complex.ofReal_ne_zero.mpr hL
  rw [omega, ← Complex.exp_add]
  congr 1
  rw [xg]
  push_cast
  field_simp
  ring

theorem pad_fft_sum (N : ℕ) (v : Fin N → ℂ) (g : Fin (3 * N) → ℂ) :
    (∑ t : Fin (3 * N),
      (if h : (t : ℕ) < N then v ⟨t, h⟩ else 0) * g t) =
      ∑ t : Fin N, v t * g ⟨(t : ℕ), by omega⟩ := by
  classical
  have hemb : Function.Injective
      (fun t : Fin N => (⟨(t : ℕ), by omega⟩ : Fin (3 * N))) := by
    intro a b hab
    exact Fin.ext (by simpa using congrArg Fin.val hab)
  rw [← Finset.sum_subset
    (Finset.subset_univ ((Finset.univ : Finset (Fin N)).map
      ⟨fun t => ⟨(t : ℕ), by omega⟩, hemb⟩))]
  · rw [Finset.sum_map]
    refine Finset.sum_congr rfl fun t _ => ?_
    simp only [Function.Embedding.coeFn_mk]
    rw [dif_pos t.isLt]
  · intro x _ hx
    rw [dif_neg, zero_mul]
    intro hxN
    exact hx (Finset.mem_map.mpr
      ⟨⟨(x : ℕ), hxN⟩, Finset.mem_univ _, Fin.ext rfl⟩)

theorem sum_reindex3 (N : ℕ) (G : Fin (3 * N) → ℂ) :
    (∑ K : Fin (3 * N), G K) =
      ∑ q : Fin N, ∑ l : Fin 3, G (subIdx N q l) := by
  calc (∑ K : Fin (3 * N), G K)
      = ∑ p : Fin N × Fin 3, G (subIdx N p.1 p.2) :=
        (Equiv.sum_comp
          { toFun := fun p : Fin N × Fin 3 => subIdx N p.1 p.2
            invFun := fun K =>
              (⟨(K : ℕ) / 3, by omega⟩, ⟨(K : ℕ) % 3, by omega⟩)
            left_inv := by
              rintro ⟨a, b⟩
              have hb := b.isLt
              refine Prod.ext (Fin.ext ?_) (Fin.ext ?_)
              · show (3 * (a : ℕ) + b) / 3 = a
                omega
              · show (3 * (a : ℕ) + b) % 3 = b
                omega
            right_inv := by
              intro K
              have hK := K.isLt
              refine Fin.ext ?_
              show 3 * ((K : ℕ) / 3) + (K : ℕ) % 3 = (K : ℕ)
              omega }
          (fun K => G K)).symm
    _ = ∑ q : Fin N, ∑ l : Fin 3, G (subIdx N q l) :=
        Fintype.sum_prod_type (fun p : Fin N × Fin 3 => G (subIdx N p.1 p.2))

theorem subIdx_val (N : ℕ) (q : Fin N) (l : Fin 3) :
    ((subIdx N q l : Fin (3 * N)) : ℕ) = 3 * (q : ℕ) + (l : ℕ) := rfl

theorem fin_mk_val (n a : ℕ) (h : a < n) : ((⟨a, h⟩ : Fin n) : ℕ) = a := rfl

/-- The 1-D sublattice decomposition: for an even grid size, the accumulated
`method='sum'` loop equals `3` times the `3N`-point padded (image-free)
convolution cropped to the small grid, for any truncation diameter `D`, form
factors and complex field — `3 = 3**dim` is the factor the `dim = 1` code
fails to divide by. -/
theorem sum_pad_identity (N : ℕ) (hN : Even N) (hN0 : 0 < N) (L : ℝ)
    (hL : L ≠ 0) (D : ℝ) (ffs : List (ℝ → ℝ)) (v : Fin N → ℂ) (j : Fin N) :
    (∑ l : Fin 3, sumDV1 N L D ffs v l j) =
      3 * ifft1 (3 * N) (fun K =>
        ((cartesianCkernel D ffs
            (Real.sqrt (kg (3 * N) (3 * L) K ^ 2)) : ℝ) : ℂ) *
        fft1 (3 * N) (fun t =>
          if h : (t : ℕ) < N then v ⟨(t : ℕ), h⟩ else 0) K)
        ⟨(j : ℕ), by omega⟩ := by
  have hN' : N ≠ 0 := hN0.ne'
  have h3N : 3 * N ≠ 0 := by omega
  have hNc : (N : ℂ) ≠ 0 := Nat.cast_ne_zero.mpr hN'
  have h3NC : ((3 * N : ℕ) : ℂ) = 3 * (N : ℂ) := by push_cast; ring
  have hL1 : ∀ l : Fin 3, sumDV1 N L D ffs v l j =
      ∑ q : Fin N, ∑ t : Fin N,
        (N : ℂ)⁻¹ *
          ((cartesianCkernel D ffs (Real.sqrt ((kg N L q +
              2 * Real.pi * ((l : ℕ) : ℝ) / 3 / L) ^ 2)) : ℝ) : ℂ) *
          v t * omega (3 * N) (-((l : ℤ) * (t : ℤ))) *
          omega N (-((t : ℤ) * (q : ℤ))) * omega N ((j : ℤ) * (q : ℤ)) *
          omega (3 * N) ((l : ℤ) * (j : ℤ)) := by
    intro l
    rw [sumDV1, ifft1, Finset.mul_sum, Finset.mul_sum]
    refine Finset.sum_congr rfl fun q _ => ?_
    rw [fft1, Finset.mul_sum, Finset.sum_mul, Finset.mul_sum, Finset.mul_sum]
    refine Finset.sum_congr rfl fun t _ => ?_
    rw [sum_phase_factor N hN' L hL l j, sum_phase_factor N hN' L hL l t,
      map_mul, omega_conj, conj_c3]
    linear_combination
      ((N : ℂ)⁻¹ *
        ((cartesianCkernel D ffs (Real.sqrt ((kg N L q +
            2 * Real.pi * ((l : ℕ) : ℝ) / 3 / L) ^ 2)) : ℝ) : ℂ) *
        v t * omega (3 * N) (-((l : ℤ) * (t : ℤ))) *
        omega N (-((t : ℤ) * (q : ℤ))) * omega N ((j : ℤ) * (q : ℤ)) *
        omega (3 * N) ((l : ℤ) * (j : ℤ))) * c3_mul_conj l
  have hfftpad : ∀ K : Fin (3 * N),
      fft1 (3 * N) (fun t =>
        if h : (t : ℕ) < N then v ⟨(t : ℕ), h⟩ else 0) K =
      ∑ t : Fin N, v t * omega (3 * N) (-((t : ℤ) * (K : ℤ))) := by
    intro K
    rw [fft1]
    exact pad_fft_sum N v (fun t => omega (3 * N) (-((t : ℤ) * (K : ℤ))))
  have hR : 3 * ifft1 (3 * N) (fun K =>
        ((cartesianCkernel D ffs
            (Real.sqrt (kg (3 * N) (3 * L) K ^ 2)) : ℝ) : ℂ) *
        fft1 (3 * N) (fun t =>
          if h : (t : ℕ) < N then v ⟨(t : ℕ), h⟩ else 0) K)
        ⟨(j : ℕ), by omega⟩ =
      ∑ q : Fin N, ∑ l : Fin 3, ∑ t : Fin N,
        (N : ℂ)⁻¹ *
          ((cartesianCkernel D ffs (Real.sqrt ((kg N L q +
              2 * Real.pi * ((l : ℕ) : ℝ) / 3 / L) ^ 2)) : ℝ) : ℂ) *
          v t * omega (3 * N) (-((l : ℤ) * (t : ℤ))) *
          omega N (-((t : ℤ) * (q : ℤ))) * omega N ((j : ℤ) * (q : ℤ)) *
          omega (3 * N) ((l : ℤ) * (j : ℤ)) := by
    rw [ifft1]
    rw [Finset.sum_congr rfl fun K _ => by rw [hfftpad K]]
    rw [sum_reindex3 N]
    rw [Finset.mul_sum, Finset.mul_sum]
    refine Finset.sum_congr rfl fun q _ => ?_
    rw [Finset.mul_sum, Finset.mul_sum]
    refine Finset.sum_congr rfl fun l _ => ?_
    rw [kg_pad_eq N hN L hL q l, subIdx_val N q l, fin_mk_val]
    have hsj : omega (3 * N)
        (((j : ℕ) : ℤ) * ((3 * (q : ℕ) + (l : ℕ) : ℕ) : ℤ)) =
        omega N ((j : ℤ) * (q : ℤ)) * omega (3 * N) ((l : ℤ) * (j : ℤ)) := by
      rw [show (((j : ℕ) : ℤ) * ((3 * (q : ℕ) + (l : ℕ) : ℕ) : ℤ)) =
        3 * ((j : ℤ) * (q : ℤ)) + (l : ℤ) * (j : ℤ) by push_cast; ring]
      rw [omega_add (3 * N) h3N, omega_three N hN']
    have hst : ∀ t : Fin N, omega (3 * N)
        (-((t : ℤ) * ((3 * (q : ℕ) + (l : ℕ) : ℕ) : ℤ))) =
        omega N (-((t : ℤ) * (q : ℤ))) *
          omega (3 * N) (-((l : ℤ) * (t : ℤ))) := by
      intro t
      rw [show (-((t : ℤ) * ((3 * (q : ℕ) + (l : ℕ) : ℕ) : ℤ))) =
        3 * (-((t : ℤ) * (q : ℤ))) + -((l : ℤ) * (t : ℤ)) by push_cast; ring]
      rw [omega_add (3 * N) h3N, omega_three N hN']
    rw [hsj]
    rw [Finset.sum_congr rfl fun t _ => by rw [hst t]]
    rw [Finset.mul_sum, Finset.sum_mul, Finset.mul_sum, Finset.mul_sum]
    refine Finset.sum_congr rfl fun t _ => ?_
    rw [h3NC, mul_inv]
    ring
  rw [Finset.sum_congr rfl fun l _ => hL1 l, hR]
  exact Finset.sum_comm

/-! ## Theorems for C1 -/

/-- C1, amended: for a 1-dimensional `CartesianBasis` with an even number of
grid points, `convolve_coulomb_exact` with `method='sum'` returns exactly
`3**dim/dim**3 = 3` times the result of `method='pad'` (in exact arithmetic,
for every field and every list of form factors): the two methods differ by
the normalization factor `3**dim/dim**3` and agree only when
`dim**3 = 3**dim`, i.e. in three dimensions. -/
theorem C1_sum_eq_three_pad (N : ℕ) (hN : Even N) (hN0 : 0 < N) (L : ℝ)
    (hL : L ≠ 0) (ffs : List (ℝ → ℝ)) (v : Fin N → ℂ) (j : Fin N) :
    (convSum1 N L ffs ⟨v, true⟩).val j =
      3 * (convPad1 N L ffs ⟨v, true⟩).val j := by
  show (∑ l : Fin 3, sumDV1 N L (Real.sqrt (L ^ 2)) ffs v l j) /
      (1 : ℂ) ^ 3 = _
  rw [one_pow, div_one]
  exact sum_pad_identity N hN hN0 L hL (Real.sqrt (L ^ 2)) ffs v j

/-- C1, witness: the amended theorem applied at the concrete even-sized
1-dimensional basis `N = 2`, `L = 1`, no form factors, constant field `1`. -/
theorem C1_witness :
    Even 2 ∧ 0 < 2 ∧ (1 : ℝ) ≠ 0 ∧
    (convSum1 2 1 [] ⟨fun _ => 1, true⟩).val 0 =
      3 * (convPad1 2 1 [] ⟨fun _ => 1, true⟩).val 0 :=
  ⟨⟨1, rfl⟩, by decide, one_ne_zero,
    C1_sum_eq_three_pad 2 ⟨1, rfl⟩ (by decide) 1 one_ne_zero []
      (fun _ => 1) 0⟩

theorem fft1_one (w : Fin 1 → ℂ) (k : Fin 1) : fft1 1 w k = w 0 := by
  simp [fft1, omega, Fin.sum_univ_one, Fin.val_eq_zero]

theorem ifft1_one (g : Fin 1 → ℂ) (k : Fin 1) : ifft1 1 g k = g 0 := by
  simp [ifft1, omega, Fin.sum_univ_one, Fin.val_eq_zero]

theorem omega_zero (M : ℕ) : omega M 0 = 1 := by
  simp [omega]

/-- C1, counterexample: for the 1-dimensional basis with `N = 1`, `L = 1`,
no form factors and the complex field `y = [1]`, `method='sum'` returns
`2π + 27/(2π) + 27/(8π)` while `method='pad'` returns `(2π + 27/π)/3`; the
two values differ (by `4π/3 + 63/(8π)`), so the claim that the two methods
agree for every spatial dimensionality fails at `dim = 1`. -/
theorem C1_counterexample :
    (convSum1 1 1 [] ⟨fun _ => 1, true⟩).val 0 ≠
      (convPad1 1 1 [] ⟨fun _ => 1, true⟩).val 0 := by
  have hpi := Real.pi_pos
  have hpine : Real.pi ≠ 0 := hpi.ne'
  have hD : Real.sqrt ((1 : ℝ) ^ 2) = 1 := by rw [one_pow, Real.sqrt_one]
  have hker0 : cartesianCkernel 1 [] 0 = 2 * Real.pi := by
    unfold cartesianCkernel
    rw [if_pos rfl]
    simp only [List.map_nil, List.prod_nil, mul_one, one_pow]
    ring
  have hcos23 : Real.cos (1 * (2 * Real.pi / 3)) = -(1 / 2) := by
    rw [one_mul, show (2 * Real.pi / 3) = Real.pi - Real.pi / 3 by ring,
      Real.cos_pi_sub, Real.cos_pi_div_three]
  have hcos43 : Real.cos (1 * (4 * Real.pi / 3)) = -(1 / 2) := by
    rw [one_mul,
      show (4 * Real.pi / 3) = 2 * Real.pi - 2 * Real.pi / 3 by ring,
      Real.cos_two_pi_sub,
      show (2 * Real.pi / 3) = Real.pi - Real.pi / 3 by ring,
      Real.cos_pi_sub, Real.cos_pi_div_three]
  have hker1 : cartesianCkernel 1 [] (2 * Real.pi / 3) =
      27 / (2 * Real.pi) := by
    unfold cartesianCkernel
    rw [if_neg (by positivity : (2 * Real.pi / 3 : ℝ) > 0).ne']
    rw [hcos23]
    simp only [List.map_nil, List.prod_nil, mul_one]
    field_simp
    ring
  have hker2 : cartesianCkernel 1 [] (4 * Real.pi / 3) =
      27 / (8 * Real.pi) := by
    unfold cartesianCkernel
    rw [if_neg (by positivity : (4 * Real.pi / 3 : ℝ) > 0).ne']
    rw [hcos43]
    simp only [List.map_nil, List.prod_nil, mul_one]
    field_simp
    ring
  have hkg : kg 1 1 0 = 0 := by simp [kg, fftfreqIdx]
  have hsum : (convSum1 1 1 [] ⟨fun _ => 1, true⟩).val 0 =
      ((2 * Real.pi + 27 / (2 * Real.pi) + 27 / (8 * Real.pi) : ℝ) : ℂ) := by
    show (∑ l : Fin 3,
        sumDV1 1 1 (Real.sqrt ((1 : ℝ) ^ 2)) [] (fun _ => 1) l 0) /
      (1 : ℂ) ^ 3 = _
    rw [show ((1 : ℂ) ^ 3) = 1 from by norm_num, div_one]
    have hdv : ∀ l : Fin 3,
        sumDV1 1 1 (Real.sqrt ((1 : ℝ) ^ 2)) [] (fun _ => 1) l 0 =
        ((cartesianCkernel 1 []
          (Real.sqrt ((kg 1 1 0 +
            2 * Real.pi * (((l : Fin 3) : ℕ) : ℝ) / 3 / 1) ^ 2)) :
          ℝ) : ℂ) := by
      intro l
      rw [sumDV1, ifft1_one, fft1_one, hD]
      linear_combination
        ((cartesianCkernel 1 []
          (Real.sqrt ((kg 1 1 0 +
            2 * Real.pi * (((l : Fin 3) : ℕ) : ℝ) / 3 / 1) ^ 2)) :
          ℝ) : ℂ) *
          exp_I_mul_conj
            (2 * Real.pi * (((l : Fin 3) : ℕ) : ℝ) / 3 / 1 * xg 1 1 0)
    rw [Fin.sum_univ_three, hdv 0, hdv 1, hdv 2]
    rw [show (kg 1 1 0 +
        2 * Real.pi * (((0 : Fin 3) : ℕ) : ℝ) / 3 / 1) = 0 by
      rw [hkg]; norm_num]
    rw [show (kg 1 1 0 +
        2 * Real.pi * (((1 : Fin 3) : ℕ) : ℝ) / 3 / 1) = 2 * Real.pi / 3 by
      rw [hkg, Fin.val_one]; push_cast; ring]
    rw [show (kg 1 1 0 +
        2 * Real.pi * (((2 : Fin 3) : ℕ) : ℝ) / 3 / 1) = 4 * Real.pi / 3 by
      rw [hkg, Fin.val_two]; push_cast; ring]
    rw [show Real.sqrt ((0 : ℝ) ^ 2) = 0 by norm_num]
    rw [Real.sqrt_sq (by positivity : (0 : ℝ) ≤ 2 * Real.pi / 3)]
    rw [Real.sqrt_sq (by positivity : (0 : ℝ) ≤ 4 * Real.pi / 3)]
    rw [hker0, hker1, hker2]
    push_cast
    ring
  have hpad : (convPad1 1 1 [] ⟨fun _ => 1, true⟩).val 0 =
      (((2 * Real.pi + 27 / (2 * Real.pi) + 27 / (2 * Real.pi)) / 3 :
        ℝ) : ℂ) := by
    show ifft1 3 (fun K =>
        ((cartesianCkernel (Real.sqrt ((1 : ℝ) ^ 2)) []
            (Real.sqrt (kg 3 (3 * (1 : ℝ)) K ^ 2)) : ℝ) : ℂ) *
        fft1 3 (fun t =>
          if h : (t : ℕ) < 1 then (1 : ℂ) else 0) K)
        ⟨0, by omega⟩ = _
    have hfpad : ∀ K : Fin 3,
        fft1 3 (fun t => if h : (t : ℕ) < 1 then (1 : ℂ) else 0) K = 1 := by
      intro K
      rw [fft1, Fin.sum_univ_three]
      rw [dif_pos (by decide : ((0 : Fin 3) : ℕ) < 1),
        dif_neg (by decide : ¬ ((1 : Fin 3) : ℕ) < 1),
        dif_neg (by decide : ¬ ((2 : Fin 3) : ℕ) < 1)]
      simp [omega, Fin.val_zero]
    rw [ifft1, fin_mk_val, Fin.sum_univ_three]
    rw [hfpad 0, hfpad 1, hfpad 2]
    rw [hD]
    rw [show kg 3 (3 * (1 : ℝ)) 0 = 0 by simp [kg, fftfreqIdx]]
    rw [show kg 3 (3 * (1 : ℝ)) 1 = 2 * Real.pi / 3 by
      rw [kg, show fftfreqIdx 3 1 = 1 by decide]; push_cast; ring]
    rw [show kg 3 (3 * (1 : ℝ)) 2 = -(2 * Real.pi / 3) by
      rw [kg, show fftfreqIdx 3 2 = -1 by decide]; push_cast; ring]
    rw [show Real.sqrt ((0 : ℝ) ^ 2) = 0 by norm_num]
    rw [show Real.sqrt ((2 * Real.pi / 3) ^ 2) = 2 * Real.pi / 3 from
      Real.sqrt_sq (by positivity)]
    rw [show Real.sqrt ((-(2 * Real.pi / 3)) ^ 2) = 2 * Real.pi / 3 by
      rw [neg_sq]
      exact Real.sqrt_sq (by positivity)]
    rw [hker0, hker1]
    have hw : ∀ K : Fin 3, omega 3 (((0 : ℕ) : ℤ) * (K : ℤ)) = 1 := by
      intro K
      rw [show (((0 : ℕ) : ℤ) * (K : ℤ)) = 0 by push_cast; ring, omega_zero]
    rw [hw 0, hw 1, hw 2]
    push_cast
    ring
  intro heq
  rw [hsum, hpad] at heq
  have hre := Complex.ofReal_inj.mp heq
  field_simp at hre
  nlinarith [sq_nonneg Real.pi, Real.pi_pos]
